import Mathlib

/-!
Verification of the PDF keyword-search core of FlaskMag (flask_stream13.py).

Python strings are embedded as `List Char` (abbreviated `Str`).  Paths are
POSIX style (the Linux branch of the source configuration).  File
modification times are embedded as `Int`: only their ordering and the
default value 0 matter to the code.  The pdf_cache dict, which maps
filenames to page lists and holds the reserved key `_metadata`, is embedded
as a structure with a `docs` field and a `meta` field; the sentinel string
check `k != '_metadata'` in the source corresponds to reading `docs`
instead of `meta`.  A Python dict never holds duplicate keys, so updates
are embedded with replace-in-place-or-append semantics (`dictSet`), which
is exactly what assignment to a dict key does, including preservation of
insertion order.
-/

abbrev Str := List Char

/-- Character-wise lowercasing, embedding `str.lower()`. -/
def lowerStr (s : Str) : Str := s.map Char.toLower

/-- ASCII whitespace, the characters stripped by `str.strip()` and matched
by the regex class `\s` on the texts this program handles. -/
def isPyWs (c : Char) : Bool :=
  c = ' ' || c = '\t' || c = '\n' || c = '\r' || c = '\x0b' || c = '\x0c'

/-- The three characters the context-snapping loops test, the Python
string literal ` \n\t` used in `search_with_context`. -/
def isSnapWs (c : Char) : Bool := c = ' ' || c = '\n' || c = '\t'

/-- Embedding of `str.strip()`: drop whitespace from both ends. -/
def pyStrip (s : Str) : Str :=
  ((s.dropWhile isPyWs).reverse.dropWhile isPyWs).reverse

/-- Helper for whitespace collapsing: the flag records whether the
previous character was whitespace (so a run emits one space). -/
def collapseWsAux : Str → Bool → Str
  | [], _ => []
  | c :: cs, prevWs =>
    if isPyWs c then
      (if prevWs then collapseWsAux cs true else ' ' :: collapseWsAux cs true)
    else c :: collapseWsAux cs false

/-- Embedding of `re.sub(r'\s+', ' ', text.strip())`, the normalization
applied to every extracted page in `extract_pdf_text_pdfplumber`. -/
def normalizeText (s : Str) : Str := collapseWsAux (pyStrip s) false

/-- Embedding of `os.path.basename` for POSIX paths: the part of the path
after the last separator. -/
def basename (p : Str) : Str := (p.reverse.takeWhile (fun c => c ≠ '/')).reverse

/-- All suffixes of a list, longest first; used to express substring scans
structurally. -/
def suffixes (ts : Str) : List Str :=
  ts :: (match ts with
  | [] => []
  | _ :: ts2 => suffixes ts2)

/-- Embedding of the Python substring test `needle in hay`. -/
def containsSub (needle hay : Str) : Bool :=
  (suffixes hay).any fun t2 => needle.isPrefixOf t2

/-- The outcome the source observes for one page inside
`extract_pdf_text_pdfplumber`: either `page.extract_text()` raised, or it
returned `None` or a string (`extracted none` embeds `None`). -/
inductive PageSpec where
  | fault : PageSpec
  | extracted : Option Str → PageSpec
deriving DecidableEq, Repr

/-- One PDF document as addressed by the batch pipeline: its path, its
on-disk modification time at processing time, and what opening it yields:
`none` when `pdfplumber.open` fails (whole-document failure), otherwise
the per-page outcomes in page order. -/
structure Doc where
  path : Str
  mtime : Int
  content : Option (List PageSpec)
deriving DecidableEq, Repr

/-- The per-page branch of `extract_pdf_text_pdfplumber`: a raised
exception or missing/empty text yields the empty string, otherwise the
normalized text is kept (`if text:` is false for `None` and `""`). -/
def pageOut : PageSpec → Str
  | .fault => []
  | .extracted none => []
  | .extracted (some t) => if t = [] then [] else normalizeText t

/-- Embedding of `extract_pdf_text_pdfplumber`: an unreadable document
yields the empty sequence; otherwise each page contributes one entry in
page order. -/
def extract_pdf_text_pdfplumber (d : Doc) : List Str :=
  match d.content with
  | none => []
  | some ps => ps.map pageOut

/-- A cached metadata record, the dict written to
`pdf_cache['_metadata'][file_name]`. -/
structure MetaRec where
  mtime : Int
  processed_at : Str
deriving DecidableEq, Repr

/-- The pdf_cache dict: document entries plus the reserved `_metadata`
table, kept as two association lists with dict semantics. -/
structure Cache where
  docs : List (Str × List Str)
  meta : List (Str × MetaRec)
deriving DecidableEq, Repr

def emptyCache : Cache := ⟨[], []⟩

/-- Python dict assignment `d[k] = v`: replace the value in place if the
key exists, else append the new pair. -/
def dictSet {β : Type} (l : List (Str × β)) (k : Str) (v : β) : List (Str × β) :=
  match l with
  | [] => [(k, v)]
  | (a, b) :: t => if a = k then (k, v) :: t else (a, b) :: dictSet t k v

/-- One file as seen by a directory scan: its path and its live on-disk
modification time (`os.path.getmtime`). -/
structure FileStat where
  path : Str
  mtime : Int
deriving DecidableEq, Repr

/-- `cache_metadata.get(file_name, {}).get('mtime', 0)`: the cached
modification time of a filename, 0 when the filename is absent. -/
def cachedMtime (c : Cache) (n : Str) : Int :=
  match List.lookup n c.meta with
  | some m => m.mtime
  | none => 0

/-- Embedding of `check_for_updates`: keep exactly the files whose live
modification time is strictly greater than the cached one. -/
def check_for_updates (pdf_files : List FileStat) (pdf_cache : Cache) : List FileStat :=
  pdf_files.filter fun f => cachedMtime pdf_cache (basename f.path) < f.mtime

/-- One completed extraction task as `process_pdfs_batch` consumes it from
`as_completed`: the submitted path, the pages `future.result()` returned,
the live modification time read when the result is stored, and the
`datetime.now().isoformat()` string. -/
structure TaskResult where
  path : Str
  pages : List Str
  mtime : Int
  processed_at : Str
deriving DecidableEq, Repr

/-- The body of the `as_completed` loop: store the pages under the
basename and update that basename's metadata record. -/
def applyResult (c : Cache) (r : TaskResult) : Cache :=
  ⟨dictSet c.docs (basename r.path) r.pages,
   dictSet c.meta (basename r.path) ⟨r.mtime, r.processed_at⟩⟩

/-- Embedding of `process_pdfs_batch`, parametrized by the completed tasks
in completion order (the order `as_completed` yields them, which is
unspecified).  `future.result()` never raises because the extractor
catches every exception, so the `except` branch of the loop is dead and
every completed task is applied. -/
def process_pdfs_batch (completed : List TaskResult) (pdf_cache : Cache) : Cache :=
  completed.foldl applyResult pdf_cache

/-- A whole batch run: extract every document and apply the results in the
given completion order, with `now` the shared wall-clock reading. -/
def runBatch (order : List Doc) (now : Str) (pdf_cache : Cache) : Cache :=
  process_pdfs_batch
    (order.map fun d => ⟨d.path, extract_pdf_text_pdfplumber d, d.mtime, now⟩)
    pdf_cache

/-- One row of the SQLite `text_index` table. -/
structure TextRow where
  filename : Str
  full_text : Str
  page_count : Nat
deriving DecidableEq, Repr

/-- `' '.join(pages)`. -/
def joinPages (ps : List Str) : Str := List.intercalate ([' ']) ps

/-- Embedding of `create_text_index_db`: the table is cleared and one row
inserted per cached document with the lowercased space-joined text.  Dict
keys are unique, so plain `map` coincides with `INSERT OR REPLACE`. -/
def create_text_index_db (pdf_cache : Cache) : List TextRow :=
  pdf_cache.docs.map fun fp => ⟨fp.1, lowerStr (joinPages fp.2), fp.2.length⟩

/-- SQL `LIKE` matching over the embedded strings: `%` matches any
sequence, `_` any single character, anything else itself.  Recursion is on
the pattern; `suffixes` enumerates the split points for `%`. -/
def likeMatch : Str → Str → Bool
  | [], ts => ts.isEmpty
  | c :: ps, ts =>
    if c = '%' then (suffixes ts).any fun t2 => likeMatch ps t2
    else if c = '_' then
      (match ts with
       | [] => false
       | _ :: ts2 => likeMatch ps ts2)
    else
      (match ts with
       | [] => false
       | t :: ts2 => c == t && likeMatch ps ts2)

/-- Embedding of `search_text_index`: `none` models a missing index file
or an SQLite error; otherwise the filenames of the rows whose full text
matches `LIKE '%keyword.lower()%'`. -/
def search_text_index (keyword : Str) (db : Option (List TextRow)) : Option (List Str) :=
  match db with
  | none => none
  | some rows =>
    some ((rows.filter fun r =>
      likeMatch (('%' :: lowerStr keyword) ++ ['%']) r.full_text).map fun r => r.filename)

/-- The context radius, `CONTEXT_CHARS = 150`. -/
def CONTEXT_CHARS : Nat := 150

/-- Scanner behind `re.finditer` for an escaped literal pattern: leftmost
matches, non-overlapping (after a match the scan resumes past it).  The
fuel is the length of the scanned text, which always suffices. -/
def findIterGo (k : Str) : Nat → Str → Nat → List Nat
  | 0, _, _ => []
  | _ + 1, [], _ => []
  | fuel + 1, c :: cs, i =>
    if k.isPrefixOf (c :: cs) then
      i :: findIterGo k fuel ((c :: cs).drop k.length) (i + k.length)
    else findIterGo k fuel cs (i + 1)

/-- All match start positions of the literal pattern `k` in `t`, as
`re.finditer` yields them.  An empty pattern matches at every position. -/
def findIter (k t : Str) : List Nat :=
  if k = [] then List.range (t.length + 1) else findIterGo k t.length t 0

/-- Every case-insensitive occurrence position of `k` in `t`, overlapping
ones included; this is the quantifier the specification uses. -/
def allOccPositions (k t : Str) : List Nat :=
  (List.range (t.length + 1)).filter fun i =>
    (lowerStr k).isPrefixOf ((lowerStr t).drop i)

/-- The backward snapping loop of `search_with_context`: decrement
`context_start` while it is positive and does not sit on a whitespace
character. -/
def snapStart (T : Str) : Nat → Nat
  | 0 => 0
  | s + 1 => if isSnapWs (T.getD (s + 1) ' ') then s + 1 else snapStart T s

/-- The forward snapping loop: increment `context_end` while it is inside
the text and does not sit on a whitespace character.  Fuel
`T.length - e` suffices. -/
def snapEndGo (T : Str) : Nat → Nat → Nat
  | 0, e => e
  | fuel + 1, e =>
    if e < T.length && !(isSnapWs (T.getD e ' ')) then snapEndGo T fuel (e + 1) else e

def snapEnd (T : Str) (e : Nat) : Nat := snapEndGo T (T.length - e) e

/-- Python slicing `T[s:e]` for `s ≤ e`. -/
def pySlice (T : Str) (s e : Nat) : Str := (T.drop s).take (e - s)

/-- The apostrophe character, kept out of string literals. -/
def squote : Char := Char.ofNat 39

/-- The opening highlight markup of `search_with_context`. -/
def openTagStr : Str :=
  ("<span style=").data ++ [squote]
    ++ ("background-color: yellow; color: black; font-weight: bold; padding: 2px;").data
    ++ [squote] ++ (">").data

/-- The closing highlight markup. -/
def closeTagStr : Str := ("</span>").data

/-- Scanner behind `re.sub` with the case-insensitive escaped keyword:
walk the context; at a case-insensitive occurrence emit a matched segment
carrying the original-case text and resume past it, otherwise emit the
current character unmatched. -/
def hlGo (k : Str) : Nat → Str → List (Bool × Str)
  | 0, rest => if rest = [] then [] else [(false, rest)]
  | _ + 1, [] => []
  | fuel + 1, c :: cs =>
    if (lowerStr k).isPrefixOf (lowerStr (c :: cs)) then
      (true, (c :: cs).take k.length) :: hlGo k fuel ((c :: cs).drop k.length)
    else (false, [c]) :: hlGo k fuel cs

/-- Segmentation of a context into unmatched runs and matched keyword
occurrences, as `re.sub` replaces them.  An empty pattern matches the
empty string at every gap. -/
def highlightSegs (k ctx : Str) : List (Bool × Str) :=
  if k = [] then ctx.flatMap (fun c => [(true, []), (false, [c])]) ++ [(true, [])]
  else hlGo k ctx.length ctx

/-- The highlighted context: matched segments are wrapped in the span
markup, with `\1` preserving the original-case text. -/
def render_highlight (k ctx : Str) : Str :=
  (highlightSegs k ctx).flatMap fun seg =>
    if seg.1 then openTagStr ++ seg.2 ++ closeTagStr else seg.2

/-- Embedding of `search_with_context`.  Both call sites pass the same
string for `text` and `original_text`, so the embedding takes it once:
for each non-overlapping case-insensitive match position, snap the
150-character window outward to whitespace, strip it, and highlight. -/
def search_with_context (keyword text : Str) : List Str :=
  (findIter (lowerStr keyword) (lowerStr text)).map fun pos =>
    let s := snapStart text (pos - CONTEXT_CHARS)
    let e := snapEnd text (min text.length (pos + keyword.length + CONTEXT_CHARS))
    render_highlight keyword (pyStrip (pySlice text s e))

/-- One search hit, the dict built in `search_single_page`. -/
structure MatchRec where
  file : Str
  page_number : Nat
  context : Str
  full_text : Str
  full_path : Option Str
deriving DecidableEq, Repr

/-- The global filename-to-path mapping `_file_path_cache`. -/
abbrev PathCache := List (Str × Str)

/-- Embedding of `get_pdf_path`: exact lookup, falling back to lookup by
basename (`or` on the two dict reads). -/
def get_pdf_path (pc : PathCache) (filename : Str) : Option Str :=
  (List.lookup filename pc).or (List.lookup (basename filename) pc)

/-- The inner `search_single_page` of `search_pages_parallel`. -/
def search_single_page (pc : PathCache) (pdf_file : Str) (keyword : Str)
    (page_number : Nat) (page_text : Str) : List MatchRec :=
  if containsSub (lowerStr keyword) (lowerStr page_text) then
    (search_with_context keyword page_text).map fun ctx =>
      ⟨pdf_file, page_number + 1, ctx, page_text, get_pdf_path pc pdf_file⟩
  else []

/-- Embedding of `search_pages_parallel`: every page is scanned and the
hits concatenated in page order (the thread-pool branch uses
`executor.map`, which yields results in input order, so both branches have
the same value). -/
def search_pages_parallel (pc : PathCache) (pdf_file : Str) (pages : List Str)
    (keyword : Str) : List MatchRec :=
  (List.range pages.length).flatMap fun i =>
    search_single_page pc pdf_file keyword i (pages.getD i [])

/-- Embedding of `smart_search`: empty stripped keyword short-circuits;
otherwise candidates come from the index, falling back to every cached
document when the index is unavailable; candidates missing from the cache
are skipped. -/
def smart_search (keyword : Str) (pc : PathCache) (db : Option (List TextRow))
    (pdf_cache : Cache) : List MatchRec :=
  if pyStrip keyword = [] then []
  else
    let kw := pyStrip keyword
    let candidate_files := match search_text_index kw db with
      | none => pdf_cache.docs.map Prod.fst
      | some fs => fs
    candidate_files.flatMap fun f =>
      match List.lookup f pdf_cache.docs with
      | none => []
      | some pages => search_pages_parallel pc f pages kw

/-- Filenames in order of first appearance, the key order a defaultdict
acquires while `group_results_by_file` fills it. -/
def dedupFirstAux (seen : List Str) : List Str → List Str
  | [] => []
  | a :: l => if a ∈ seen then dedupFirstAux seen l else a :: dedupFirstAux (a :: seen) l

/-- The grouping step of `group_results_by_file` before sorting: one group
per file in first-appearance order, each holding its records in input
order. -/
def baseGroups (results : List MatchRec) : List (Str × List MatchRec) :=
  (dedupFirstAux [] (results.map fun r => r.file)).map fun f =>
    (f, results.filter fun r => r.file == f)

/-- Stable insertion for descending group size: a new element passes an
existing one only when it is strictly larger, so equal sizes keep their
relative order, exactly the contract of Python `sorted` with
`reverse=True`. -/
def insertDesc (x : Str × List MatchRec) :
    List (Str × List MatchRec) → List (Str × List MatchRec)
  | [] => [x]
  | y :: ys => if y.2.length < x.2.length then x :: y :: ys else y :: insertDesc x ys

/-- A stable sort by descending group size.  Python `sorted` is stable, so
any stable algorithm is extensionally the embedding of it. -/
def sortByCountDesc (l : List (Str × List MatchRec)) : List (Str × List MatchRec) :=
  l.foldl (fun acc x => insertDesc x acc) []

/-- Embedding of `group_results_by_file`: group by file, then sort groups
by descending number of results. -/
def group_results_by_file (results : List MatchRec) : List (Str × List MatchRec) :=
  sortByCountDesc (baseGroups results)

/-- Modelled from the spec: the `pickle` byte format is external to the
repository (the source only calls `pickle.dump` and `pickle.load`), and
the spec requires of durable cache storage only that it round-trips the
store faithfully; the stream is therefore embedded as tokens carrying
atomic numbers, timestamps and strings. -/
inductive Tok where
  | tn : Nat → Tok
  | ti : Int → Tok
  | ts : Str → Tok
deriving DecidableEq, Repr

/-- Serialize a list: a length token followed by the serialized
elements. -/
def encL {α : Type} (enc : α → List Tok) (l : List α) : List Tok :=
  Tok.tn l.length :: l.flatMap enc

/-- Deserialize `n` consecutive elements, returning them with the
remaining stream; `none` on malformed input. -/
def decN {α : Type} (dec : List Tok → Option (α × List Tok)) :
    Nat → List Tok → Option (List α × List Tok)
  | 0, toks => some ([], toks)
  | n + 1, toks =>
    match dec toks with
    | none => none
    | some (a, rest) =>
      match decN dec n rest with
      | none => none
      | some (l, rest2) => some (a :: l, rest2)

/-- Deserialize a length-prefixed list. -/
def decL {α : Type} (dec : List Tok → Option (α × List Tok)) :
    List Tok → Option (List α × List Tok)
  | Tok.tn n :: rest => decN dec n rest
  | _ => none

def encStrTok (s : Str) : List Tok := [Tok.ts s]

def decStrTok : List Tok → Option (Str × List Tok)
  | Tok.ts s :: rest => some (s, rest)
  | _ => none

def encDocEntry (e : Str × List Str) : List Tok := Tok.ts e.1 :: encL encStrTok e.2

def decDocEntry (toks : List Tok) : Option ((Str × List Str) × List Tok) :=
  match toks with
  | Tok.ts f :: rest =>
    match decL decStrTok rest with
    | some (ps, rest2) => some ((f, ps), rest2)
    | none => none
  | _ => none

def encMetaEntry (e : Str × MetaRec) : List Tok :=
  [Tok.ts e.1, Tok.ti e.2.mtime, Tok.ts e.2.processed_at]

def decMetaEntry : List Tok → Option ((Str × MetaRec) × List Tok)
  | Tok.ts f :: Tok.ti m :: Tok.ts p :: rest => some ((f, ⟨m, p⟩), rest)
  | _ => none

/-- Serialize a whole cache store: the document entries then the metadata
table. -/
def encCache (c : Cache) : List Tok :=
  encL encDocEntry c.docs ++ encL encMetaEntry c.meta

/-- Deserialize a cache store. -/
def decCache (toks : List Tok) : Option (Cache × List Tok) :=
  match decL decDocEntry toks with
  | none => none
  | some (docs, rest) =>
    match decL decMetaEntry rest with
    | none => none
    | some (meta, rest2) => some (⟨docs, meta⟩, rest2)

/-- The durable cache file: `none` when `pdf_cache.pkl` does not exist. -/
abbrev CacheFile := Option (List Tok)

/-- Embedding of `save_cache`: `pickle.dump` writes the serialized store
over whatever the file held. -/
def save_cache (data : Cache) (_file : CacheFile) : CacheFile :=
  some (encCache data)

/-- Embedding of `load_cached_data`: a missing file or a deserialization
failure yields the empty store (corruption is non-fatal), otherwise the
deserialized store. -/
def load_cached_data (file : CacheFile) : Cache :=
  match file with
  | none => emptyCache
  | some toks =>
    match decCache toks with
    | some (c, _) => c
    | none => emptyCache

def cacheC1 : Cache :=
  ⟨[((("doc.pdf").data), [(("Hello World").data), (("other page").data)])], []⟩

def rA : TaskResult := ⟨(("a/x.pdf").data), [(("alpha page").data)], 1, (("t1").data)⟩

def rB : TaskResult := ⟨(("b/x.pdf").data), [(("beta page").data)], 2, (("t2").data)⟩

def rC : TaskResult := ⟨(("a/y.pdf").data), [(("gamma page").data)], 3, (("t3").data)⟩

def fileC3 : FileStat := ⟨(("d/mag.pdf").data), 10⟩

def cacheC3 : Cache := ⟨[], [((("mag.pdf").data), ⟨5, (("t0").data)⟩)]⟩

def docC6 : Doc :=
  ⟨(("d/mag.pdf").data), 7, some
    [.extracted (some (("Page one").data)),
     .extracted (some (("Page two").data)),
     .fault,
     .extracted (some (("Page four").data)),
     .extracted (some (("Page five").data))]⟩

def specsC6 : List PageSpec :=
  [.extracted (some (("Page one").data)),
   .extracted (some (("Page two").data)),
   .fault,
   .extracted (some (("Page four").data)),
   .extracted (some (("Page five").data))]

def docC2 : Doc := ⟨(("lib/bad.pdf").data), 5, none⟩

def nowC2 : Str := ("2024-01-01T00:00:00").data

def mkRecC8 (f : Str) : MatchRec := ⟨f, 1, [], [], none⟩

def exRecsC8 : List MatchRec :=
  List.replicate 5 (mkRecC8 (("A").data))
    ++ List.replicate 9 (mkRecC8 (("B").data))
    ++ List.replicate 2 (mkRecC8 (("C").data))

def pcC9 : PathCache := [((("mag.pdf").data), (("d/mag.pdf").data))]

def cacheC9 : Cache :=
  ⟨[((("mag.pdf").data), [(("hello world").data)])],
   [((("mag.pdf").data), ⟨1, (("t0").data)⟩)]⟩

def cacheC7 : Cache :=
  ⟨[((("a.pdf").data), [(("hello world").data), (("page two").data)])],
   [((("a.pdf").data), ⟨3, (("2023-05-05T10:00:00").data)⟩)]⟩

/-- The claim's word-boundary property: a non-empty context occurs in the
page text immediately after a space or the text start, ends immediately
before a space or the text end, and itself neither starts nor ends with
whitespace. -/
def wordBounded (T ctx : Str) : Prop :=
  ctx = [] ∨
  ∃ u v : Str, T = u ++ ctx ++ v ∧
    (u = [] ∨ u.getLast? = some ' ') ∧
    (v = [] ∨ v.head? = some ' ') ∧
    (∀ c : Char, ctx.head? = some c → isPyWs c = false) ∧
    (∀ c : Char, ctx.getLast? = some c → isPyWs c = false)

/-- The claim's highlighting property for one context: removing the markup
restores the context exactly (so wrapped occurrences keep their original
case), every wrapped segment is a case-insensitive occurrence of the
keyword, and the number of wrapped segments equals the number of
non-overlapping case-insensitive matches inside the context. -/
def highlightSpec (k ctx : Str) : Prop :=
  ((highlightSegs k ctx).flatMap (fun seg => seg.2) = ctx) ∧
  (∀ seg ∈ highlightSegs k ctx, seg.1 = true → lowerStr seg.2 = lowerStr k) ∧
  ((highlightSegs k ctx).countP (fun seg => seg.1)
    = (findIter (lowerStr k) (lowerStr ctx)).length)

def cacheC10 : Cache :=
  ⟨[((("gone.pdf").data), [(("hello world").data)])],
   [((("gone.pdf").data), ⟨2, (("t0").data)⟩)]⟩

def pcC10 : PathCache := [((("other.pdf").data), (("d/other.pdf").data))]

def filesC10 : List FileStat := [⟨(("d/other.pdf").data), 9⟩]

def rsC10 : List TaskResult := [⟨(("d/other.pdf").data), [(("fresh page").data)], 9, (("t1").data)⟩]


/-! Basic lemmas about the string scanners. -/

theorem drop_mem_suffixes (ts : Str) : ∀ n : Nat, ts.drop n ∈ suffixes ts := by
  induction ts with
  | nil => intro n; simp [suffixes]
  | cons c cs ih =>
    intro n
    cases n with
    | zero => simp [suffixes]
    | succ m =>
      rw [List.drop_succ_cons]
      exact List.mem_cons_of_mem _ (ih m)

theorem suffix_of_mem_suffixes {t2 ts : Str} (h : t2 ∈ suffixes ts) : t2 <:+ ts := by
  induction ts with
  | nil => simpa [suffixes] using h
  | cons c cs ih =>
    rw [suffixes] at h
    rcases List.mem_cons.mp h with h1 | h2
    · exact h1 ▸ List.suffix_refl _
    · exact (ih h2).trans (List.suffix_cons c cs)

theorem containsSub_iff (needle hay : Str) : containsSub needle hay = true ↔ needle <:+: hay := by
  constructor
  · intro h
    obtain ⟨t2, hmem, hpre⟩ := List.any_eq_true.mp h
    exact (List.isPrefixOf_iff_prefix.mp hpre).isInfix.trans
      (suffix_of_mem_suffixes hmem).isInfix
  · rintro ⟨s, t, rfl⟩
    apply List.any_eq_true.mpr
    refine ⟨needle ++ t, ?_, List.isPrefixOf_iff_prefix.mpr (List.prefix_append _ _)⟩
    have : (s ++ needle ++ t).drop s.length = needle ++ t := by
      rw [List.append_assoc, List.drop_left]
    exact this ▸ drop_mem_suffixes _ s.length

theorem lowerStr_mono {l₁ l₂ : Str} (h : l₁ <:+: l₂) : lowerStr l₁ <:+: lowerStr l₂ := by
  obtain ⟨s, t, rfl⟩ := h
  exact ⟨lowerStr s, lowerStr t, by simp [lowerStr, List.map_append]⟩

theorem joinPages_cons_cons (a b : Str) (rest : List Str) :
    joinPages (a :: b :: rest) = a ++ ' ' :: joinPages (b :: rest) := by
  simp [joinPages, List.intercalate, List.intersperse_cons_cons]

theorem infix_joinPages {p : Str} {ps : List Str} (h : p ∈ ps) : p <:+: joinPages ps := by
  induction ps with
  | nil => simp at h
  | cons a rest ih =>
    rcases List.mem_cons.mp h with rfl | hmem
    · cases rest with
      | nil => simp [joinPages, List.intercalate]
      | cons b r2 =>
        rw [joinPages_cons_cons]
        exact ⟨[], ' ' :: joinPages (b :: r2), by simp⟩
    · cases rest with
      | nil => simp at hmem
      | cons b r2 =>
        refine (ih hmem).trans ?_
        rw [joinPages_cons_cons]
        exact ⟨a ++ [' '], [], by simp⟩

theorem likeMatch_pct_any (b : Str) : likeMatch (['%']) b = true := by
  simp only [likeMatch, if_pos rfl]
  apply List.any_eq_true.mpr
  refine ⟨[], ?_, rfl⟩
  have := drop_mem_suffixes b b.length
  rwa [List.drop_length] at this

theorem likeMatch_self_pct : ∀ (k b : Str), likeMatch (k ++ ['%']) (k ++ b) = true := by
  intro k
  induction k with
  | nil => intro b; simpa using likeMatch_pct_any b
  | cons c k ih =>
    intro b
    by_cases hc : c = '%'
    · subst hc
      rw [List.cons_append, List.cons_append, likeMatch]
      simp only [if_pos rfl]
      apply List.any_eq_true.mpr
      refine ⟨k ++ b, ?_, ih b⟩
      rw [suffixes]
      exact List.mem_cons_of_mem _ (drop_mem_suffixes (k ++ b) 0)
    · by_cases hu : c = '_'
      · subst hu
        rw [List.cons_append, List.cons_append, likeMatch]
        simp only [if_neg (by decide : ¬('_' = '%')), if_pos rfl]
        exact ih b
      · rw [List.cons_append, List.cons_append, likeMatch]
        simp only [if_neg hc, if_neg hu]
        simp [ih b]

theorem likeMatch_of_contains {k t : Str} (h : k <:+: t) :
    likeMatch (('%' :: k) ++ ['%']) t = true := by
  obtain ⟨s, u, rfl⟩ := h
  rw [List.cons_append]
  simp only [likeMatch, if_pos rfl]
  apply List.any_eq_true.mpr
  refine ⟨k ++ u, ?_, likeMatch_self_pct k u⟩
  have : (s ++ k ++ u).drop s.length = k ++ u := by
    rw [List.append_assoc, List.drop_left]
  exact this ▸ drop_mem_suffixes _ s.length

theorem mem_of_lookup_eq_some {β : Type} {k : Str} {v : β} :
    ∀ {l : List (Str × β)}, List.lookup k l = some v → (k, v) ∈ l := by
  intro l
  induction l with
  | nil => intro h; simp [List.lookup] at h
  | cons p t ih =>
    intro h
    obtain ⟨a, b⟩ := p
    rw [List.lookup_cons] at h
    by_cases hk : k == a
    · simp only [hk] at h
      obtain rfl := Option.some.inj h
      have : k = a := beq_iff_eq.mp hk
      subst this
      exact List.mem_cons_self _ _
    · simp only [Bool.not_eq_true] at hk
      simp only [hk] at h
      exact List.mem_cons_of_mem _ (ih h)

theorem mem_search_text_index_of_occ (keyword : Str) (pdf_cache : Cache)
    (D : Str) (pages : List Str)
    (hD : List.lookup D pdf_cache.docs = some pages)
    (hocc : ∃ p ∈ pages, lowerStr keyword <:+: lowerStr p)
    (fs : List Str)
    (hq : search_text_index keyword (some (create_text_index_db pdf_cache)) = some fs) :
    D ∈ fs := by
  rw [search_text_index] at hq
  obtain rfl := Option.some.inj hq
  obtain ⟨p, hp, hinf⟩ := hocc
  apply List.mem_map.mpr
  refine ⟨⟨D, lowerStr (joinPages pages), pages.length⟩, ?_, rfl⟩
  apply List.mem_filter.mpr
  constructor
  · apply List.mem_map.mpr
    exact ⟨(D, pages), mem_of_lookup_eq_some hD, rfl⟩
  · exact likeMatch_of_contains (hinf.trans (lowerStr_mono (infix_joinPages hp)))

/-- C1.  Prefilter superset property: if some cached page of document `D`
contains the keyword case-insensitively, then `D` is among the filenames
`search_text_index` returns whenever the query is answered from the index
built by `create_text_index_db` (the prefilter has no false negatives). -/
theorem prefilter_superset (keyword : Str) (pdf_cache : Cache) (D : Str) (pages : List Str)
    (_hk : pyStrip keyword ≠ [])
    (hD : List.lookup D pdf_cache.docs = some pages)
    (hocc : ∃ p ∈ pages, lowerStr keyword <:+: lowerStr p)
    (fs : List Str)
    (hq : search_text_index keyword (some (create_text_index_db pdf_cache)) = some fs) :
    D ∈ fs :=
  mem_search_text_index_of_occ keyword pdf_cache D pages hD hocc fs hq

/-- Witness for C1 at a concrete cache and keyword. -/
theorem prefilter_superset_witness : (("doc.pdf").data) ∈ [(("doc.pdf").data)] :=
  prefilter_superset (("World").data) cacheC1 (("doc.pdf").data)
    [(("Hello World").data), (("other page").data)]
    (by decide) (by decide)
    ⟨(("Hello World").data), by decide, by decide⟩
    [(("doc.pdf").data)] (by decide)

/-! Lemmas about dict updates and the batch fold. -/

theorem lookup_cons_self {β : Type} (a : Str) (b : β) (t : List (Str × β)) :
    List.lookup a ((a, b) :: t) = some b := by
  rw [List.lookup_cons]
  simp

theorem lookup_cons_ne {β : Type} {q a : Str} (h : q ≠ a) (b : β) (t : List (Str × β)) :
    List.lookup q ((a, b) :: t) = List.lookup q t := by
  rw [List.lookup_cons]
  have hb : (q == a) = false := beq_eq_false_iff_ne.mpr h
  simp [hb]

theorem lookup_dictSet {β : Type} (l : List (Str × β)) (k : Str) (v : β) (q : Str) :
    List.lookup q (dictSet l k v) = if q = k then some v else List.lookup q l := by
  induction l with
  | nil =>
    by_cases hq : q = k
    · subst hq; simp [dictSet, lookup_cons_self]
    · rw [show dictSet ([] : List (Str × β)) k v = [(k, v)] from rfl, lookup_cons_ne hq]
      simp [List.lookup, hq]
  | cons p t ih =>
    obtain ⟨a, b⟩ := p
    rw [dictSet]
    by_cases ha : a = k
    · subst ha
      simp only [if_pos rfl]
      by_cases hq : q = a
      · subst hq; simp [lookup_cons_self]
      · simp [hq, lookup_cons_ne hq]
    · simp only [if_neg ha]
      by_cases hq : q = a
      · subst hq
        simp [lookup_cons_self, ha]
      · rw [lookup_cons_ne hq, lookup_cons_ne hq, ih]

theorem lookup_process_batch (rs : List TaskResult) :
    ∀ (c : Cache) (q : Str),
      List.lookup q (process_pdfs_batch rs c).docs =
        (match rs.reverse.find? (fun r => basename r.path == q) with
         | some r => some r.pages
         | none => List.lookup q c.docs) ∧
      List.lookup q (process_pdfs_batch rs c).meta =
        (match rs.reverse.find? (fun r => basename r.path == q) with
         | some r => some (⟨r.mtime, r.processed_at⟩ : MetaRec)
         | none => List.lookup q c.meta) := by
  induction rs with
  | nil => intro c q; exact ⟨rfl, rfl⟩
  | cons r rest ih =>
    intro c q
    have hstep : process_pdfs_batch (r :: rest) c = process_pdfs_batch rest (applyResult c r) := rfl
    obtain ⟨ihd, ihm⟩ := ih (applyResult c r) q
    rw [hstep, ihd, ihm, List.reverse_cons, List.find?_append]
    cases hf : rest.reverse.find? (fun r => basename r.path == q) with
    | some r2 => simp [Option.or]
    | none =>
      by_cases hb : basename r.path = q
      · have hbeq : (basename r.path == q) = true := beq_iff_eq.mpr hb
        have hq : q = basename r.path := hb.symm
        simp [Option.or, List.find?, hbeq, applyResult, lookup_dictSet, hq]
      · have hbeq : (basename r.path == q) = false := beq_eq_false_iff_ne.mpr hb
        have hq : q ≠ basename r.path := fun h => hb h.symm
        simp [Option.or, List.find?, hbeq, applyResult, lookup_dictSet, hq]

theorem find?_perm_of_unique {α : Type} {p : α → Bool} {l₁ l₂ : List α}
    (hperm : l₁.Perm l₂)
    (huniq : ∀ a ∈ l₁, ∀ b ∈ l₁, p a = true → p b = true → a = b) :
    l₁.find? p = l₂.find? p := by
  cases h1 : l₁.find? p with
  | none =>
    cases h2 : l₂.find? p with
    | none => rfl
    | some b =>
      have hb := List.find?_some h2
      have hmem : b ∈ l₁ := hperm.mem_iff.mpr (List.mem_of_find?_eq_some h2)
      have := List.find?_eq_none.mp h1 _ hmem
      simp [hb] at this
  | some a =>
    have ha := List.find?_some h1
    have hamem : a ∈ l₂ := hperm.subset (List.mem_of_find?_eq_some h1)
    cases h2 : l₂.find? p with
    | none =>
      have := List.find?_eq_none.mp h2 _ hamem
      simp [ha] at this
    | some b =>
      have hb := List.find?_some h2
      have hbmem : b ∈ l₁ := hperm.mem_iff.mpr (List.mem_of_find?_eq_some h2)
      rw [huniq a (List.mem_of_find?_eq_some h1) b hbmem ha hb]

/-- C5.  Completion-order independence of the batch (amended: it holds
when the basenames in the batch are pairwise distinct; two batch paths
sharing a basename make the final entry depend on completion order): for
any two completion orders of the same tasks, the final cache agrees on
every key, both for page entries and for metadata records. -/
theorem batch_order_independent (rs₁ rs₂ : List TaskResult) (pdf_cache : Cache)
    (hnd : (rs₁.map fun r => basename r.path).Nodup)
    (hperm : rs₁.Perm rs₂) :
    ∀ q : Str,
      List.lookup q (process_pdfs_batch rs₁ pdf_cache).docs
        = List.lookup q (process_pdfs_batch rs₂ pdf_cache).docs ∧
      List.lookup q (process_pdfs_batch rs₁ pdf_cache).meta
        = List.lookup q (process_pdfs_batch rs₂ pdf_cache).meta := by
  intro q
  have hperm2 : rs₁.reverse.Perm rs₂.reverse :=
    (rs₁.reverse_perm).trans (hperm.trans (rs₂.reverse_perm).symm)
  have hnd2 : (rs₁.reverse.map fun r => basename r.path).Nodup := by
    rw [List.map_reverse]
    exact List.nodup_reverse.mpr hnd
  have huniq : ∀ a ∈ rs₁.reverse, ∀ b ∈ rs₁.reverse,
      (basename a.path == q) = true → (basename b.path == q) = true → a = b := by
    intro a ha b hb hpa hpb
    exact List.inj_on_of_nodup_map hnd2 ha hb
      (by rw [beq_iff_eq.mp hpa, beq_iff_eq.mp hpb])
  have hfind := find?_perm_of_unique hperm2 huniq
  obtain ⟨h1d, h1m⟩ := lookup_process_batch rs₁ pdf_cache q
  obtain ⟨h2d, h2m⟩ := lookup_process_batch rs₂ pdf_cache q
  rw [h1d, h2d, h1m, h2m, hfind]
  exact ⟨rfl, rfl⟩

/-- Counterexample to C5 as stated: two tasks for distinct paths with the
same basename; the two completion orders yield different final caches, so
completion order is not irrelevant without the distinct-basename
hypothesis. -/
theorem batch_order_counterexample :
    (([rA, rB] : List TaskResult).Perm [rB, rA]) ∧
    List.lookup (("x.pdf").data) (process_pdfs_batch [rA, rB] emptyCache).docs
      = some [(("beta page").data)] ∧
    List.lookup (("x.pdf").data) (process_pdfs_batch [rB, rA] emptyCache).docs
      = some [(("alpha page").data)] ∧
    process_pdfs_batch [rA, rB] emptyCache ≠ process_pdfs_batch [rB, rA] emptyCache := by
  exact ⟨by decide, by decide, by decide, by decide⟩

/-- Witness for C5 at a concrete two-element batch with distinct
basenames, read back at both keys. -/
theorem batch_order_independent_witness :
    (List.lookup (("x.pdf").data) (process_pdfs_batch [rA, rC] emptyCache).docs
      = List.lookup (("x.pdf").data) (process_pdfs_batch [rC, rA] emptyCache).docs ∧
     List.lookup (("x.pdf").data) (process_pdfs_batch [rA, rC] emptyCache).meta
      = List.lookup (("x.pdf").data) (process_pdfs_batch [rC, rA] emptyCache).meta) ∧
    (List.lookup (("y.pdf").data) (process_pdfs_batch [rA, rC] emptyCache).docs
      = List.lookup (("y.pdf").data) (process_pdfs_batch [rC, rA] emptyCache).docs ∧
     List.lookup (("y.pdf").data) (process_pdfs_batch [rA, rC] emptyCache).meta
      = List.lookup (("y.pdf").data) (process_pdfs_batch [rC, rA] emptyCache).meta) :=
  ⟨batch_order_independent [rA, rC] [rC, rA] emptyCache (by decide) (by decide) (("x.pdf").data),
   batch_order_independent [rA, rC] [rC, rA] emptyCache (by decide) (by decide) (("y.pdf").data)⟩

/-- C3.  Staleness criterion: a listed file is selected by
`check_for_updates` exactly when its live modification time is strictly
greater than the cached one (0 when absent); equal or lower times never
mark it stale. -/
theorem staleness_iff (F : FileStat) (files : List FileStat) (pdf_cache : Cache)
    (hF : F ∈ files) :
    F ∈ check_for_updates files pdf_cache
      ↔ cachedMtime pdf_cache (basename F.path) < F.mtime := by
  rw [check_for_updates]
  constructor
  · intro h
    have := (List.mem_filter.mp h).2
    simpa using this
  · intro h
    exact List.mem_filter.mpr ⟨hF, by simpa using h⟩

/-- Witness for C3: a file with live time 10 against cached time 5 is
selected. -/
theorem staleness_iff_witness : fileC3 ∈ check_for_updates [fileC3] cacheC3 :=
  (staleness_iff fileC3 [fileC3] cacheC3 (by decide)).mpr (by decide)

/-- C6.  Per-page fault isolation: a document that opens with `n` pages
yields exactly `n` entries in page order; a faulting page (or one with no
text) contributes the empty string in its slot, every other page its
normalized extracted text. -/
theorem per_page_fault_isolation (d : Doc) (specs : List PageSpec)
    (hc : d.content = some specs) :
    (extract_pdf_text_pdfplumber d).length = specs.length ∧
    ∀ i : Nat, i < specs.length →
      ((specs.getD i .fault = .fault ∨ specs.getD i .fault = .extracted none
          ∨ specs.getD i .fault = .extracted (some [])) →
        (extract_pdf_text_pdfplumber d).getD i [] = []) ∧
      (∀ t : Str, specs.getD i .fault = .extracted (some t) → t ≠ [] →
        (extract_pdf_text_pdfplumber d).getD i [] = normalizeText t) := by
  rw [extract_pdf_text_pdfplumber, hc]
  refine ⟨List.length_map _ _, ?_⟩
  intro i hi
  have hmi : i < (specs.map pageOut).length := by simpa using hi
  rw [List.getD_eq_getElem _ _ hmi, List.getD_eq_getElem _ _ hi, List.getElem_map]
  constructor
  · intro h
    rcases h with h | h | h <;> rw [h] <;> simp [pageOut]
  · intro t ht htne
    rw [ht]
    simp [pageOut, htne]

/-- Witness for C6: five pages with the third faulting give five entries,
an empty third entry, and the fourth page text as extracted. -/
theorem per_page_fault_isolation_witness :
    (extract_pdf_text_pdfplumber docC6).length = 5 ∧
    (extract_pdf_text_pdfplumber docC6).getD 2 [] = [] ∧
    (extract_pdf_text_pdfplumber docC6).getD 3 [] = normalizeText (("Page four").data) :=
  ⟨((per_page_fault_isolation docC6 specsC6 rfl).1).trans (by decide),
   ((per_page_fault_isolation docC6 specsC6 rfl).2 2 (by decide)).1 (Or.inl (by decide)),
   ((per_page_fault_isolation docC6 specsC6 rfl).2 3 (by decide)).2
     (("Page four").data) (by decide) (by decide)⟩

/-- C2 (amended).  Whole-document failure handling: when a document fails
to open, the extractor does return the empty sequence, but the batch loop
still stores `future.result()`, so the cache receives an empty pages entry
and a fresh metadata record for that basename; a later pass therefore does
not re-attempt the document while its on-disk time is unchanged (it is
neither stale nor new). -/
theorem whole_doc_failure_cached (d : Doc) (order : List Doc) (now : Str)
    (pdf_cache : Cache)
    (hfail : d.content = none) (hmem : d ∈ order)
    (huniq : ∀ e ∈ order, basename e.path = basename d.path → e = d) :
    extract_pdf_text_pdfplumber d = [] ∧
    List.lookup (basename d.path) (runBatch order now pdf_cache).docs = some [] ∧
    List.lookup (basename d.path) (runBatch order now pdf_cache).meta
      = some ⟨d.mtime, now⟩ ∧
    check_for_updates [⟨d.path, d.mtime⟩] (runBatch order now pdf_cache) = [] := by
  have hex : extract_pdf_text_pdfplumber d = [] := by
    rw [extract_pdf_text_pdfplumber, hfail]
  set mk := fun e : Doc =>
    (⟨e.path, extract_pdf_text_pdfplumber e, e.mtime, now⟩ : TaskResult) with hmk
  have hfind : (order.map mk).reverse.find?
      (fun r => basename r.path == basename d.path) = some (mk d) := by
    have hsome : ((order.map mk).reverse.find?
        (fun r => basename r.path == basename d.path)).isSome := by
      apply List.find?_isSome.mpr
      refine ⟨mk d, ?_, by simp⟩
      rw [List.mem_reverse]
      exact List.mem_map.mpr ⟨d, hmem, rfl⟩
    cases hf : (order.map mk).reverse.find?
        (fun r => basename r.path == basename d.path) with
    | none => rw [hf] at hsome; simp at hsome
    | some r0 =>
      have hr0mem : r0 ∈ order.map mk := List.mem_reverse.mp (List.mem_of_find?_eq_some hf)
      obtain ⟨e, hemem, hre⟩ := List.mem_map.mp hr0mem
      have hpred := List.find?_some hf
      have hbe : basename r0.path = basename d.path := beq_iff_eq.mp hpred
      have hed : e = d := huniq e hemem (by rw [← hre] at hbe; exact hbe)
      rw [← hre, hed]
  obtain ⟨hd, hm⟩ := lookup_process_batch (order.map mk) pdf_cache (basename d.path)
  have hdocs : List.lookup (basename d.path) (runBatch order now pdf_cache).docs = some [] := by
    rw [runBatch, hd, hfind]
    simp [hex]
  have hmeta : List.lookup (basename d.path) (runBatch order now pdf_cache).meta
      = some ⟨d.mtime, now⟩ := by
    rw [runBatch, hm, hfind]
  refine ⟨hex, hdocs, hmeta, ?_⟩
  rw [check_for_updates]
  have hcm : cachedMtime (runBatch order now pdf_cache) (basename d.path) = d.mtime := by
    rw [cachedMtime, hmeta]
  simp [hcm]

/-- Counterexample to C2 as stated: after processing a batch holding one
unreadable document over an empty cache, both a pages entry (the empty
list) and a metadata record are written for it, and the next pass selects
nothing, so the document is not re-attempted. -/
theorem whole_doc_failure_counterexample :
    extract_pdf_text_pdfplumber docC2 = [] ∧
    ¬ (List.lookup (("bad.pdf").data) (runBatch [docC2] nowC2 emptyCache).docs = none ∧
       List.lookup (("bad.pdf").data) (runBatch [docC2] nowC2 emptyCache).meta = none) ∧
    List.lookup (("bad.pdf").data) (runBatch [docC2] nowC2 emptyCache).docs = some [] ∧
    check_for_updates [⟨(("lib/bad.pdf").data), 5⟩] (runBatch [docC2] nowC2 emptyCache)
      = [] := by
  exact ⟨by decide, by decide, by decide, by decide⟩

/-- Witness for the amended C2 at a concrete singleton batch. -/
theorem whole_doc_failure_cached_witness :
    extract_pdf_text_pdfplumber docC2 = [] ∧
    List.lookup (basename docC2.path) (runBatch [docC2] nowC2 emptyCache).docs = some [] ∧
    List.lookup (basename docC2.path) (runBatch [docC2] nowC2 emptyCache).meta
      = some ⟨docC2.mtime, nowC2⟩ ∧
    check_for_updates [⟨docC2.path, docC2.mtime⟩] (runBatch [docC2] nowC2 emptyCache) = [] :=
  whole_doc_failure_cached docC2 [docC2] nowC2 emptyCache rfl (by decide) (by decide)

/-! Lemmas about the stable descending insertion used by the grouper. -/

theorem insertDesc_perm (x : Str × List MatchRec) :
    ∀ l : List (Str × List MatchRec), (insertDesc x l).Perm (x :: l) := by
  intro l
  induction l with
  | nil => exact List.Perm.refl _
  | cons y ys ih =>
    rw [insertDesc]
    by_cases hlt : y.2.length < x.2.length
    · rw [if_pos hlt]
    · rw [if_neg hlt]
      exact (ih.cons y).trans (List.Perm.swap x y ys)

theorem insertDesc_sorted (x : Str × List MatchRec) {l : List (Str × List MatchRec)}
    (hs : l.Pairwise (fun a b => b.2.length ≤ a.2.length)) :
    (insertDesc x l).Pairwise (fun a b => b.2.length ≤ a.2.length) := by
  induction l with
  | nil => simp [insertDesc]
  | cons y ys ih =>
    obtain ⟨hy, hys⟩ := List.pairwise_cons.mp hs
    rw [insertDesc]
    by_cases hlt : y.2.length < x.2.length
    · rw [if_pos hlt]
      refine List.pairwise_cons.mpr ⟨?_, hs⟩
      intro b hb
      rcases List.mem_cons.mp hb with rfl | hbys
      · exact le_of_lt hlt
      · exact (hy b hbys).trans (le_of_lt hlt)
    · rw [if_neg hlt]
      refine List.pairwise_cons.mpr ⟨?_, ih hys⟩
      intro b hb
      rcases List.mem_cons.mp ((insertDesc_perm x ys).mem_iff.mp hb) with rfl | hbys
      · exact le_of_not_lt hlt
      · exact hy b hbys

theorem insertDesc_filter_eq (x : Str × List MatchRec) (n : Nat) :
    ∀ l : List (Str × List MatchRec),
      l.Pairwise (fun a b => b.2.length ≤ a.2.length) →
      (insertDesc x l).filter (fun g => g.2.length == n)
        = (if x.2.length = n
            then l.filter (fun g => g.2.length == n) ++ [x]
            else l.filter (fun g => g.2.length == n)) := by
  intro l
  induction l with
  | nil =>
    intro _
    by_cases hx : x.2.length = n
    · simp [insertDesc, List.filter, hx]
    · have hb : (x.2.length == n) = false := by simpa using hx
      simp [insertDesc, List.filter, hb, hx]
  | cons y ys ih =>
    intro hs
    obtain ⟨hy, hys⟩ := List.pairwise_cons.mp hs
    rw [insertDesc]
    by_cases hlt : y.2.length < x.2.length
    · rw [if_pos hlt]
      by_cases hx : x.2.length = n
      · have hnil : (y :: ys).filter (fun g => g.2.length == n) = [] := by
          apply List.filter_eq_nil_iff.mpr
          intro a ha
          rcases List.mem_cons.mp ha with rfl | hays
          · subst hx; simp; omega
          · have := hy a hays
            subst hx; simp; omega
        rw [if_pos hx, hnil, List.filter_cons, if_pos (by simpa using hx), hnil]
        rfl
      · rw [if_neg hx, List.filter_cons, if_neg (by simpa using hx)]
    · rw [if_neg hlt]
      rw [List.filter_cons, List.filter_cons, ih hys]
      by_cases hx : x.2.length = n
      · rw [if_pos hx, if_pos hx]
        by_cases hyn : y.2.length = n
        · rw [if_pos (by simpa using hyn), if_pos (by simpa using hyn)]
          rfl
        · rw [if_neg (by simpa using hyn), if_neg (by simpa using hyn)]
      · rw [if_neg hx, if_neg hx]

theorem foldl_insertDesc_spec (n : Nat) :
    ∀ (l acc : List (Str × List MatchRec)),
      acc.Pairwise (fun a b => b.2.length ≤ a.2.length) →
      (l.foldl (fun a x => insertDesc x a) acc).Pairwise
          (fun a b => b.2.length ≤ a.2.length) ∧
      (l.foldl (fun a x => insertDesc x a) acc).Perm (acc ++ l) ∧
      (l.foldl (fun a x => insertDesc x a) acc).filter (fun g => g.2.length == n)
        = acc.filter (fun g => g.2.length == n) ++ l.filter (fun g => g.2.length == n) := by
  intro l
  induction l with
  | nil =>
    intro acc hs
    exact ⟨hs, by simp, by simp⟩
  | cons x xs ih =>
    intro acc hs
    obtain ⟨ihs, ihp, ihf⟩ := ih (insertDesc x acc) (insertDesc_sorted x hs)
    rw [List.foldl_cons]
    refine ⟨ihs, ?_, ?_⟩
    · refine ihp.trans ?_
      have h2 : ((x :: acc) ++ xs).Perm (acc ++ x :: xs) := by
        rw [List.cons_append]
        exact List.perm_middle.symm
      exact ((insertDesc_perm x acc).append (List.Perm.refl xs)).trans h2
    · rw [ihf, insertDesc_filter_eq x n acc hs, List.filter_cons]
      by_cases hx : x.2.length = n
      · rw [if_pos hx, if_pos (by simpa using hx)]
        simp
      · rw [if_neg hx, if_neg (by simpa using hx)]

/-- C8.  Aggregation ordering: the grouped result is ordered by descending
group size, is a permutation of the first-appearance grouping, and groups
of equal size keep their first-appearance relative order (stability as
filter equality on each exact size); at match counts A:5, B:9, C:2 the key
order is [B, A, C]. -/
theorem aggregation_ordering :
    (∀ results : List MatchRec,
      (group_results_by_file results).Pairwise (fun a b => b.2.length ≤ a.2.length) ∧
      (group_results_by_file results).Perm (baseGroups results) ∧
      ∀ n : Nat,
        (group_results_by_file results).filter (fun g => g.2.length == n)
          = (baseGroups results).filter (fun g => g.2.length == n)) ∧
    (group_results_by_file exRecsC8).map Prod.fst
      = [(("B").data), (("A").data), (("C").data)] := by
  constructor
  · intro results
    have h0 : ([] : List (Str × List MatchRec)).Pairwise
        (fun a b => b.2.length ≤ a.2.length) := List.Pairwise.nil
    refine ⟨(foldl_insertDesc_spec 0 (baseGroups results) [] h0).1, ?_, ?_⟩
    · have := (foldl_insertDesc_spec 0 (baseGroups results) [] h0).2.1
      simpa [group_results_by_file, sortByCountDesc] using this
    · intro n
      have := (foldl_insertDesc_spec n (baseGroups results) [] h0).2.2
      simpa [group_results_by_file, sortByCountDesc] using this
  · decide

/-- C9.  Empty-keyword behavior: a keyword that strips to nothing yields
the empty result for every path cache, every index state and every cache
store, so neither the prefilter nor any cache entry can influence it. -/
theorem empty_keyword_search (keyword : Str) (h : pyStrip keyword = []) :
    ∀ (pc : PathCache) (db : Option (List TextRow)) (pdf_cache : Cache),
      smart_search keyword pc db pdf_cache = [] := by
  intro pc db pdf_cache
  rw [smart_search, if_pos h]

/-- Witness for C9 on the empty and the all-blank keyword over a non-empty
store. -/
theorem empty_keyword_search_witness :
    smart_search (("").data) pcC9 (some (create_text_index_db cacheC9)) cacheC9 = [] ∧
    smart_search (("   ").data) pcC9 none cacheC9 = [] :=
  ⟨empty_keyword_search (("").data) (by decide) pcC9
      (some (create_text_index_db cacheC9)) cacheC9,
   empty_keyword_search (("   ").data) (by decide) pcC9 none cacheC9⟩

/-! Round-trip lemmas for the serialized cache stream. -/

theorem decN_flatMap {α : Type} (enc : α → List Tok)
    (dec : List Tok → Option (α × List Tok))
    (h : ∀ (a : α) (rest : List Tok), dec (enc a ++ rest) = some (a, rest)) :
    ∀ (l : List α) (rest : List Tok),
      decN dec l.length (l.flatMap enc ++ rest) = some (l, rest) := by
  intro l
  induction l with
  | nil => intro rest; simp [decN]
  | cons a t ih =>
    intro rest
    rw [List.flatMap_cons, List.length_cons, List.append_assoc, decN]
    simp [h a _, ih rest]

theorem decL_encL {α : Type} (enc : α → List Tok)
    (dec : List Tok → Option (α × List Tok))
    (h : ∀ (a : α) (rest : List Tok), dec (enc a ++ rest) = some (a, rest)) :
    ∀ (l : List α) (rest : List Tok),
      decL dec (encL enc l ++ rest) = some (l, rest) := by
  intro l rest
  rw [encL, List.cons_append, decL, decN_flatMap enc dec h l rest]

theorem decStrTok_enc : ∀ (s : Str) (rest : List Tok),
    decStrTok (encStrTok s ++ rest) = some (s, rest) := by
  intro s rest
  rfl

theorem decDocEntry_enc : ∀ (e : Str × List Str) (rest : List Tok),
    decDocEntry (encDocEntry e ++ rest) = some (e, rest) := by
  intro e rest
  obtain ⟨f, ps⟩ := e
  rw [encDocEntry, List.cons_append, decDocEntry,
    decL_encL encStrTok decStrTok decStrTok_enc ps rest]

theorem decMetaEntry_enc : ∀ (e : Str × MetaRec) (rest : List Tok),
    decMetaEntry (encMetaEntry e ++ rest) = some (e, rest) := by
  intro e rest
  obtain ⟨f, mr⟩ := e
  obtain ⟨m, p⟩ := mr
  rfl

theorem decCache_encCache (c : Cache) : decCache (encCache c) = some (c, []) := by
  obtain ⟨docs, meta⟩ := c
  have h1 : encCache ⟨docs, meta⟩
      = encL encDocEntry docs ++ (encL encMetaEntry meta ++ []) := by
    rw [encCache, List.append_nil]
  have h2 : decL decMetaEntry (encL encMetaEntry meta) = some (meta, []) := by
    have := decL_encL encMetaEntry decMetaEntry decMetaEntry_enc meta []
    rwa [List.append_nil] at this
  rw [h1, decCache]
  simp [decL_encL encDocEntry decDocEntry decDocEntry_enc, h2]

/-- C7.  Cache persistence round-trip: loading the file produced by saving
a store returns exactly that store, key sets, page sequences and the
metadata table included. -/
theorem cache_roundtrip (S : Cache) (file : CacheFile)
    (_hne : S.docs ≠ [] ∨ S.meta ≠ []) :
    load_cached_data (save_cache S file) = S := by
  rw [save_cache, load_cached_data, decCache_encCache]

/-- Witness for C7 at a concrete non-empty store. -/
theorem cache_roundtrip_witness :
    load_cached_data (save_cache cacheC7 none) = cacheC7 :=
  cache_roundtrip cacheC7 none (Or.inl (by decide))

/-! Lemmas about the match scanner, the snapping loops and stripping. -/

theorem findIterGo_sound (k : Str) (hk : k ≠ []) :
    ∀ (fuel : Nat) (t : Str) (j : Nat), t.length ≤ fuel →
      ∀ i ∈ findIterGo k fuel t j,
        ∃ m, i = j + m ∧ m + k.length ≤ t.length ∧ k <+: t.drop m := by
  intro fuel
  induction fuel with
  | zero =>
    intro t j hlen i hi
    have : t = [] := List.length_eq_zero.mp (Nat.le_zero.mp hlen)
    subst this
    simp [findIterGo] at hi
  | succ fuel ih =>
    intro t j hlen i hi
    cases t with
    | nil => simp [findIterGo] at hi
    | cons c cs =>
      rw [findIterGo] at hi
      have hkpos : 0 < k.length := List.length_pos.mpr hk
      by_cases hp : k.isPrefixOf (c :: cs)
      · rw [if_pos hp] at hi
        have hkpre : k <+: c :: cs := List.isPrefixOf_iff_prefix.mp hp
        have hkle : k.length ≤ (c :: cs).length := hkpre.length_le
        rcases List.mem_cons.mp hi with rfl | hrec
        · exact ⟨0, by omega, by simpa using hkle, by simpa using hkpre⟩
        · have hlen2 : ((c :: cs).drop k.length).length ≤ fuel := by
            rw [List.length_drop]
            have : (c :: cs).length ≤ fuel + 1 := hlen
            omega
          obtain ⟨m, hm1, hm2, hm3⟩ := ih _ _ hlen2 i hrec
          refine ⟨k.length + m, by omega, ?_, ?_⟩
          · rw [List.length_drop] at hm2
            omega
          · rwa [List.drop_drop] at hm3
      · rw [if_neg hp] at hi
        have hlen2 : cs.length ≤ fuel := by
          have : (c :: cs).length ≤ fuel + 1 := hlen
          simpa using this
        obtain ⟨m, hm1, hm2, hm3⟩ := ih _ _ hlen2 i hi
        refine ⟨m + 1, by omega, by simpa using by omega, ?_⟩
        rwa [List.drop_succ_cons]

theorem findIter_sound (k t : Str) (hk : k ≠ []) :
    ∀ pos ∈ findIter k t, pos + k.length ≤ t.length ∧ k <+: t.drop pos := by
  intro pos hpos
  rw [findIter, if_neg hk] at hpos
  obtain ⟨m, hm1, hm2, hm3⟩ := findIterGo_sound k hk t.length t 0 (le_refl _) pos hpos
  obtain rfl : pos = m := by omega
  exact ⟨hm2, hm3⟩

theorem findIterGo_ne_nil (k : Str) (hk : k ≠ []) :
    ∀ (fuel : Nat) (t : Str) (j : Nat), t.length ≤ fuel → k <:+: t →
      findIterGo k fuel t j ≠ [] := by
  intro fuel
  induction fuel with
  | zero =>
    intro t j hlen hinf
    have ht : t = [] := List.length_eq_zero.mp (Nat.le_zero.mp hlen)
    subst ht
    have hk0 : k.length = 0 := Nat.le_zero.mp (by simpa using hinf.length_le)
    exact absurd (List.length_eq_zero.mp hk0) hk
  | succ fuel ih =>
    intro t j hlen hinf
    cases t with
    | nil =>
      have hk0 : k.length = 0 := Nat.le_zero.mp (by simpa using hinf.length_le)
      exact absurd (List.length_eq_zero.mp hk0) hk
    | cons c cs =>
      rw [findIterGo]
      by_cases hp : k.isPrefixOf (c :: cs)
      · rw [if_pos hp]; exact List.cons_ne_nil _ _
      · rw [if_neg hp]
        rcases List.infix_cons_iff.mp hinf with hpre | hinf2
        · exact absurd (List.isPrefixOf_iff_prefix.mpr hpre) hp
        · have hlen2 : cs.length ≤ fuel := by
            have h3 : cs.length + 1 ≤ fuel + 1 := by simpa using hlen
            omega
          exact ih cs (j + 1) hlen2 hinf2

theorem snapStart_le (T : Str) : ∀ s : Nat, snapStart T s ≤ s := by
  intro s
  induction s with
  | zero => simp [snapStart]
  | succ n ih =>
    rw [snapStart]
    by_cases h : isSnapWs (T.getD (n + 1) ' ') = true
    · rw [if_pos h]
    · rw [if_neg h]; omega

theorem snapStart_spec (T : Str) :
    ∀ s : Nat, snapStart T s = 0 ∨ isSnapWs (T.getD (snapStart T s) ' ') = true := by
  intro s
  induction s with
  | zero => left; rfl
  | succ n ih =>
    rw [snapStart]
    by_cases h : isSnapWs (T.getD (n + 1) ' ') = true
    · rw [if_pos h]; right; exact h
    · rw [if_neg h]; exact ih

theorem snapEndGo_ge (T : Str) : ∀ (fuel e : Nat), e ≤ snapEndGo T fuel e := by
  intro fuel
  induction fuel with
  | zero => intro e; simp [snapEndGo]
  | succ n ih =>
    intro e
    rw [snapEndGo]
    by_cases h : (e < T.length && !(isSnapWs (T.getD e ' '))) = true
    · rw [if_pos h]; exact (Nat.le_succ e).trans (ih (e + 1))
    · rw [if_neg h]

theorem snapEndGo_le (T : Str) :
    ∀ (fuel e : Nat), e ≤ T.length → snapEndGo T fuel e ≤ T.length := by
  intro fuel
  induction fuel with
  | zero => intro e he; simpa [snapEndGo] using he
  | succ n ih =>
    intro e he
    rw [snapEndGo]
    by_cases h : (e < T.length && !(isSnapWs (T.getD e ' '))) = true
    · rw [if_pos h]
      have h2 := h
      simp only [Bool.and_eq_true, decide_eq_true_eq] at h2
      exact ih (e + 1) h2.1
    · rw [if_neg h]; exact he

theorem snapEndGo_spec (T : Str) :
    ∀ (fuel e : Nat), T.length - e ≤ fuel → e ≤ T.length →
      snapEndGo T fuel e = T.length
        ∨ isSnapWs (T.getD (snapEndGo T fuel e) ' ') = true := by
  intro fuel
  induction fuel with
  | zero =>
    intro e h1 h2
    left
    rw [snapEndGo]
    omega
  | succ n ih =>
    intro e h1 h2
    rw [snapEndGo]
    by_cases h : (e < T.length && !(isSnapWs (T.getD e ' '))) = true
    · rw [if_pos h]
      have h2 := h
      simp only [Bool.and_eq_true, decide_eq_true_eq] at h2
      exact ih (e + 1) (by omega) h2.1
    · rw [if_neg h]
      by_cases helt : e < T.length
      · by_cases hws : isSnapWs (T.getD e ' ') = true
        · right; exact hws
        · exfalso
          apply h
          have hws2 : isSnapWs (T.getD e ' ') = false := by simpa using hws
          have hws3 : isSnapWs (T[e]) = false := by
            rw [← List.getD_eq_getElem T ' ' helt]; exact hws2
          simp [helt, hws2, hws3]
      · left; omega

theorem head?_dropWhile_ws : ∀ (l : Str) (c : Char),
    (l.dropWhile isPyWs).head? = some c → isPyWs c = false := by
  intro l
  induction l with
  | nil => intro c h; simp at h
  | cons a as ih =>
    intro c h
    rw [List.dropWhile_cons] at h
    by_cases ha : isPyWs a = true
    · rw [if_pos ha] at h; exact ih c h
    · rw [if_neg ha] at h
      obtain rfl : a = c := by simpa using h
      simpa using ha

theorem mem_takeWhile_ws : ∀ (l : Str), ∀ c ∈ l.takeWhile isPyWs, isPyWs c = true := by
  intro l
  induction l with
  | nil => intro c h; simp at h
  | cons a as ih =>
    intro c h
    rw [List.takeWhile_cons] at h
    by_cases ha : isPyWs a = true
    · rw [if_pos ha] at h
      rcases List.mem_cons.mp h with rfl | h2
      · exact ha
      · exact ih c h2
    · rw [if_neg ha] at h; simp at h

theorem pyStrip_decomp (l : Str) :
    ∃ u v : Str, l = u ++ pyStrip l ++ v ∧
      (∀ c ∈ u, isPyWs c = true) ∧ (∀ c ∈ v, isPyWs c = true) ∧
      (∀ c : Char, (pyStrip l).head? = some c → isPyWs c = false) ∧
      (∀ c : Char, (pyStrip l).getLast? = some c → isPyWs c = false) := by
  set A := l.dropWhile isPyWs with hA
  set B := A.reverse.dropWhile isPyWs with hB
  have hstrip : pyStrip l = B.reverse := rfl
  have hl : l = l.takeWhile isPyWs ++ A := (List.takeWhile_append_dropWhile isPyWs l).symm
  have hAr : A.reverse = A.reverse.takeWhile isPyWs ++ B :=
    (List.takeWhile_append_dropWhile isPyWs A.reverse).symm
  have hAe : A = B.reverse ++ (A.reverse.takeWhile isPyWs).reverse := by
    have := congrArg List.reverse hAr
    rwa [List.reverse_reverse, List.reverse_append] at this
  refine ⟨l.takeWhile isPyWs, (A.reverse.takeWhile isPyWs).reverse, ?_, ?_, ?_, ?_, ?_⟩
  · rw [hstrip, List.append_assoc, ← hAe, ← hl]
  · exact mem_takeWhile_ws l
  · intro c hc
    exact mem_takeWhile_ws A.reverse c (List.mem_reverse.mp hc)
  · intro c hc
    rw [hstrip, List.head?_reverse] at hc
    have hBne : B ≠ [] := by
      intro hBnil
      rw [hBnil] at hc
      simp at hc
    have hgA : A.reverse.getLast? = some c := by
      rw [hAr, List.getLast?_append]
      cases hBL : B.getLast? with
      | none => exact absurd (List.getLast?_eq_none_iff.mp hBL) hBne
      | some b =>
        rw [hBL] at hc
        obtain rfl := Option.some.inj hc
        simp [Option.or]
    rw [List.getLast?_reverse] at hgA
    exact head?_dropWhile_ws l c (by rwa [← hA])
  · intro c hc
    rw [hstrip, List.getLast?_reverse] at hc
    exact head?_dropWhile_ws A.reverse c hc

/-! The word-boundary property of snapped, stripped context windows. -/

theorem slice_decomp (T : Str) (s e : Nat) (hse : s ≤ e) :
    T = T.take s ++ pySlice T s e ++ T.drop e := by
  have h2 : (T.drop s).drop (e - s) = T.drop e := by
    rw [List.drop_drop]; congr 1; omega
  conv_lhs => rw [← List.take_append_drop s T]
  rw [pySlice, List.append_assoc]
  congr 1
  rw [← h2, List.take_append_drop]

theorem head_pySlice (T : Str) (s e : Nat) (h1 : s < e) (h2 : s < T.length) :
    (pySlice T s e).head? = some (T.getD s ' ') := by
  rw [pySlice, List.drop_eq_getElem_cons h2]
  have h3 : e - s = (e - s - 1) + 1 := by omega
  rw [h3, List.take_succ_cons]
  simp only [List.head?_cons]
  rw [List.getD_eq_getElem T ' ' h2]

theorem head?_drop_getD (T : Str) (e : Nat) (h : e < T.length) :
    (T.drop e).head? = some (T.getD e ' ') := by
  rw [List.drop_eq_getElem_cons h]
  simp only [List.head?_cons]
  rw [List.getD_eq_getElem T ' ' h]

theorem pyWs_of_snapWs {c : Char} (h : isSnapWs c = true) : isPyWs c = true := by
  simp only [isSnapWs, Bool.or_eq_true, decide_eq_true_eq] at h
  rcases h with (rfl | rfl) | rfl <;> decide

theorem wordBounded_of_snapped (T : Str) (s e : Nat)
    (hnorm : ∀ c ∈ T, isPyWs c = true → c = ' ')
    (hlt : s < e) (hel : e ≤ T.length) (hsl : s < T.length)
    (hs : s = 0 ∨ isSnapWs (T.getD s ' ') = true)
    (he : e = T.length ∨ isSnapWs (T.getD e ' ') = true) :
    wordBounded T (pyStrip (pySlice T s e)) := by
  set W := pySlice T s e with hWdef
  obtain ⟨u0, v0, hWdec, hu0, hv0, hhead, hlast⟩ := pyStrip_decomp W
  by_cases hctx : pyStrip W = []
  · exact Or.inl hctx
  right
  have hTdec : T = T.take s ++ W ++ T.drop e := slice_decomp T s e (le_of_lt hlt)
  have hT2 : T = (T.take s ++ u0) ++ pyStrip W ++ (v0 ++ T.drop e) := by
    calc T = T.take s ++ W ++ T.drop e := hTdec
      _ = T.take s ++ (u0 ++ pyStrip W ++ v0) ++ T.drop e := by rw [← hWdec]
      _ = (T.take s ++ u0) ++ pyStrip W ++ (v0 ++ T.drop e) := by
          simp [List.append_assoc]
  have hmemT : ∀ c : Char, (c ∈ u0 ∨ c ∈ v0) → c ∈ T := by
    intro c hc
    rw [hT2]
    simp only [List.mem_append]
    tauto
  refine ⟨T.take s ++ u0, v0 ++ T.drop e, hT2, ?_, ?_, hhead, hlast⟩
  · cases hgl : u0.getLast? with
    | some cu =>
      right
      have hcu_mem : cu ∈ u0 := List.mem_of_mem_getLast? (by rw [hgl]; rfl)
      have hcu : cu = ' ' := hnorm cu (hmemT cu (Or.inl hcu_mem)) (hu0 cu hcu_mem)
      rw [List.getLast?_append, hgl, hcu]
      simp [Option.or]
    | none =>
      have hu0nil : u0 = [] := List.getLast?_eq_none_iff.mp hgl
      rcases hs with hs0 | hsws
      · left
        rw [hs0, hu0nil]
        simp
      · exfalso
        have hWhead : W.head? = some (T.getD s ' ') := head_pySlice T s e hlt hsl
        have hWeq : W = pyStrip W ++ v0 := by
          conv_lhs => rw [hWdec]
          rw [hu0nil]
          simp
        rw [hWeq, List.head?_append] at hWhead
        cases hh : (pyStrip W).head? with
        | none => exact absurd (List.head?_eq_none_iff.mp hh) hctx
        | some c0 =>
          rw [hh] at hWhead
          have hc0 : c0 = T.getD s ' ' := by simpa [Option.or] using hWhead
          have hnws := hhead c0 hh
          rw [hc0] at hnws
          rw [pyWs_of_snapWs hsws] at hnws
          simp at hnws
  · cases hh : v0.head? with
    | some cv =>
      right
      have hcv_mem : cv ∈ v0 := List.mem_of_mem_head? (by rw [hh]; rfl)
      have hcv : cv = ' ' := hnorm cv (hmemT cv (Or.inr hcv_mem)) (hv0 cv hcv_mem)
      rw [List.head?_append, hh, hcv]
      simp [Option.or]
    | none =>
      have hv0nil : v0 = [] := List.head?_eq_none_iff.mp hh
      by_cases helt : e < T.length
      · right
        have hhd := head?_drop_getD T e helt
        have hews : isSnapWs (T.getD e ' ') = true := by
          rcases he with heL | hews2
          · omega
          · exact hews2
        have hmem : T.getD e ' ' ∈ T := by
          rw [List.getD_eq_getElem T ' ' helt]
          exact List.getElem_mem helt
        have hsp : T.getD e ' ' = ' ' := hnorm _ hmem (pyWs_of_snapWs hews)
        rw [hv0nil]
        simp only [List.nil_append]
        rw [hhd, hsp]
      · left
        have heq : e = T.length := by omega
        rw [hv0nil, heq]
        simp [List.drop_length]

/-! The highlight scanner: text preservation, occurrence wrapping, and
agreement with the match scanner. -/

theorem hlGo_flatten (k : Str) (hk : k ≠ []) :
    ∀ (fuel : Nat) (ctx : Str), ctx.length ≤ fuel →
      (hlGo k fuel ctx).flatMap (fun seg => seg.2) = ctx := by
  intro fuel
  induction fuel with
  | zero =>
    intro ctx h
    have : ctx = [] := List.length_eq_zero.mp (Nat.le_zero.mp h)
    subst this
    simp [hlGo]
  | succ fuel ih =>
    intro ctx h
    cases ctx with
    | nil => simp [hlGo]
    | cons c cs =>
      rw [hlGo]
      have hkpos : 0 < k.length := List.length_pos.mpr hk
      by_cases hp : (lowerStr k).isPrefixOf (lowerStr (c :: cs))
      · rw [if_pos hp, List.flatMap_cons]
        have hlen2 : ((c :: cs).drop k.length).length ≤ fuel := by
          rw [List.length_drop]
          have : (c :: cs).length ≤ fuel + 1 := h
          omega
        rw [ih _ hlen2]
        exact List.take_append_drop k.length (c :: cs)
      · rw [if_neg hp, List.flatMap_cons]
        have hlen2 : cs.length ≤ fuel := by
          have h3 : cs.length + 1 ≤ fuel + 1 := by simpa using h
          omega
        rw [ih _ hlen2]
        rfl

theorem hlGo_true_seg (k : Str) (hk : k ≠ []) :
    ∀ (fuel : Nat) (ctx : Str), ctx.length ≤ fuel →
      ∀ seg ∈ hlGo k fuel ctx, seg.1 = true → lowerStr seg.2 = lowerStr k := by
  intro fuel
  induction fuel with
  | zero =>
    intro ctx h seg hseg
    have : ctx = [] := List.length_eq_zero.mp (Nat.le_zero.mp h)
    subst this
    simp [hlGo] at hseg
  | succ fuel ih =>
    intro ctx h seg hseg htrue
    cases ctx with
    | nil => simp [hlGo] at hseg
    | cons c cs =>
      rw [hlGo] at hseg
      have hkpos : 0 < k.length := List.length_pos.mpr hk
      by_cases hp : (lowerStr k).isPrefixOf (lowerStr (c :: cs))
      · rw [if_pos hp] at hseg
        rcases List.mem_cons.mp hseg with rfl | hrec
        · have hpre : lowerStr k <+: lowerStr (c :: cs) := List.isPrefixOf_iff_prefix.mp hp
          have htake : lowerStr k = (lowerStr (c :: cs)).take (lowerStr k).length :=
            List.prefix_iff_eq_take.mp hpre
          have hklen : (lowerStr k).length = k.length := by simp [lowerStr]
          calc lowerStr ((c :: cs).take k.length)
              = (lowerStr (c :: cs)).take k.length := by
                rw [lowerStr, lowerStr, List.map_take]
            _ = lowerStr k := by rw [htake, hklen]
        · have hlen2 : ((c :: cs).drop k.length).length ≤ fuel := by
            rw [List.length_drop]
            have : (c :: cs).length ≤ fuel + 1 := h
            omega
          exact ih _ hlen2 seg hrec htrue
      · rw [if_neg hp] at hseg
        rcases List.mem_cons.mp hseg with rfl | hrec
        · simp at htrue
        · have hlen2 : cs.length ≤ fuel := by
            have h3 : cs.length + 1 ≤ fuel + 1 := by simpa using h
            omega
          exact ih _ hlen2 seg hrec htrue

theorem hlGo_count (k : Str) (hk : k ≠ []) :
    ∀ (fuel : Nat) (ctx : Str) (j : Nat), ctx.length ≤ fuel →
      (hlGo k fuel ctx).countP (fun seg => seg.1)
        = (findIterGo (lowerStr k) fuel (lowerStr ctx) j).length := by
  intro fuel
  induction fuel with
  | zero =>
    intro ctx j h
    have : ctx = [] := List.length_eq_zero.mp (Nat.le_zero.mp h)
    subst this
    simp [hlGo, findIterGo, lowerStr]
  | succ fuel ih =>
    intro ctx j h
    cases ctx with
    | nil => simp [hlGo, findIterGo, lowerStr]
    | cons c cs =>
      have hmap : lowerStr (c :: cs) = Char.toLower c :: lowerStr cs := rfl
      have hkpos : 0 < k.length := List.length_pos.mpr hk
      have hklen : (lowerStr k).length = k.length := by simp [lowerStr]
      rw [hlGo, hmap, findIterGo, ← hmap]
      by_cases hp : (lowerStr k).isPrefixOf (lowerStr (c :: cs))
      · rw [if_pos hp, if_pos hp, List.countP_cons, List.length_cons]
        have hlen2 : ((c :: cs).drop k.length).length ≤ fuel := by
          rw [List.length_drop]
          have : (c :: cs).length ≤ fuel + 1 := h
          omega
        have hdrop : lowerStr ((c :: cs).drop k.length)
            = (lowerStr (c :: cs)).drop (lowerStr k).length := by
          rw [hklen, lowerStr, lowerStr, List.map_drop]
        have := ih ((c :: cs).drop k.length) (j + (lowerStr k).length) hlen2
        rw [hdrop] at this
        rw [← this]
        simp
      · rw [if_neg hp, if_neg hp, List.countP_cons]
        have hlen2 : cs.length ≤ fuel := by
          have h3 : cs.length + 1 ≤ fuel + 1 := by simpa using h
          omega
        have := ih cs (j + 1) hlen2
        rw [← this]
        simp

theorem highlightSpec_holds (k ctx : Str) (hk : k ≠ []) : highlightSpec k ctx := by
  have hkl : lowerStr k ≠ [] := by
    simp only [lowerStr, ne_eq, List.map_eq_nil_iff]
    exact hk
  refine ⟨?_, ?_, ?_⟩
  · rw [highlightSegs, if_neg hk]
    exact hlGo_flatten k hk ctx.length ctx (le_refl _)
  · rw [highlightSegs, if_neg hk]
    exact fun seg hseg ht => hlGo_true_seg k hk ctx.length ctx (le_refl _) seg hseg ht
  · rw [highlightSegs, if_neg hk, findIter, if_neg hkl]
    have hlen : (lowerStr ctx).length = ctx.length := by simp [lowerStr]
    rw [hlen]
    exact hlGo_count k hk ctx.length ctx 0 (le_refl _)

/-- C4 (amended).  Context-window correctness for the occurrences the scan
actually finds: `search_with_context` produces one context per leftmost
non-overlapping case-insensitive occurrence (overlapping occurrences
beyond those are skipped by `re.finditer` and `re.sub`, which is the
correction to the claim); each context comes from a window snapped
outward to whitespace or the text extents and containing the occurrence,
the trimmed context never starts or ends mid-word, and the highlighting
wraps exactly the leftmost non-overlapping case-insensitive occurrences
inside the window with their original case preserved. -/
theorem context_window_correct (keyword T : Str)
    (hk : keyword ≠ [])
    (hnorm : ∀ c ∈ T, isPyWs c = true → c = ' ') :
    (search_with_context keyword T).length
      = (findIter (lowerStr keyword) (lowerStr T)).length ∧
    ∀ pos ∈ findIter (lowerStr keyword) (lowerStr T),
      ∃ s e : Nat, s ≤ pos ∧ pos + keyword.length ≤ e ∧ e ≤ T.length ∧
        (s = 0 ∨ isSnapWs (T.getD s ' ') = true) ∧
        (e = T.length ∨ isSnapWs (T.getD e ' ') = true) ∧
        render_highlight keyword (pyStrip (pySlice T s e))
          ∈ search_with_context keyword T ∧
        wordBounded T (pyStrip (pySlice T s e)) ∧
        highlightSpec keyword (pyStrip (pySlice T s e)) := by
  have hkl : lowerStr keyword ≠ [] := by
    simp only [lowerStr, ne_eq, List.map_eq_nil_iff]
    exact hk
  constructor
  · exact List.length_map _ _
  intro pos hpos
  have hsound := findIter_sound (lowerStr keyword) (lowerStr T) hkl pos hpos
  have hposlen : pos + keyword.length ≤ T.length := by
    have := hsound.1
    simpa [lowerStr] using this
  have hkpos : 0 < keyword.length := List.length_pos.mpr hk
  refine ⟨snapStart T (pos - CONTEXT_CHARS),
    snapEnd T (min T.length (pos + keyword.length + CONTEXT_CHARS)),
    ?_, ?_, ?_, ?_, ?_, ?_, ?_, ?_⟩
  · exact (snapStart_le T _).trans (Nat.sub_le _ _)
  · exact le_trans (le_min hposlen (by omega)) (snapEndGo_ge T _ _)
  · exact snapEndGo_le T _ _ (min_le_left _ _)
  · exact snapStart_spec T (pos - CONTEXT_CHARS)
  · exact snapEndGo_spec T (T.length - min T.length (pos + keyword.length + CONTEXT_CHARS))
      (min T.length (pos + keyword.length + CONTEXT_CHARS)) (le_refl _) (min_le_left _ _)
  · rw [search_with_context]
    exact List.mem_map_of_mem _ hpos
  · apply wordBounded_of_snapped T _ _ hnorm
    · have h1 : snapStart T (pos - CONTEXT_CHARS) ≤ pos :=
        (snapStart_le T _).trans (Nat.sub_le _ _)
      have h2 : pos + keyword.length
          ≤ snapEnd T (min T.length (pos + keyword.length + CONTEXT_CHARS)) :=
        le_trans (le_min hposlen (by omega)) (snapEndGo_ge T _ _)
      omega
    · exact snapEndGo_le T _ _ (min_le_left _ _)
    · have h1 : snapStart T (pos - CONTEXT_CHARS) ≤ pos :=
        (snapStart_le T _).trans (Nat.sub_le _ _)
      omega
    · exact snapStart_spec T (pos - CONTEXT_CHARS)
    · exact snapEndGo_spec T (T.length - min T.length (pos + keyword.length + CONTEXT_CHARS))
        (min T.length (pos + keyword.length + CONTEXT_CHARS)) (le_refl _) (min_le_left _ _)
  · exact highlightSpec_holds keyword _ hk

/-- Counterexample to C4 as stated: for keyword `aa` and page text `aaa`
there are two case-insensitive occurrences (positions 0 and 1), but the
scan produces a single context and the highlighting wraps a single
occurrence, so not every occurrence gets a context and the occurrence at
position 1 is not bracketed by the markup. -/
theorem context_window_counterexample :
    allOccPositions (("aa").data) (("aaa").data) = [0, 1] ∧
    (search_with_context (("aa").data) (("aaa").data)).length = 1 ∧
    search_with_context (("aa").data) (("aaa").data)
      = [openTagStr ++ ("aa").data ++ closeTagStr ++ ("a").data] ∧
    (highlightSegs (("aa").data) (("aaa").data)).countP (fun seg => seg.1) = 1 ∧
    (allOccPositions (("aa").data) (("aaa").data)).length
      ≠ (highlightSegs (("aa").data) (("aaa").data)).countP (fun seg => seg.1) := by
  exact ⟨by decide, by decide, by decide, by decide, by decide⟩

/-- Witness for the amended C4 on the specification's own example text. -/
theorem context_window_correct_witness :
    (search_with_context (("fox").data) (("the quick brown FOX jumps").data)).length
      = (findIter (lowerStr (("fox").data))
          (lowerStr (("the quick brown FOX jumps").data))).length ∧
    ∀ pos ∈ findIter (lowerStr (("fox").data))
        (lowerStr (("the quick brown FOX jumps").data)),
      ∃ s e : Nat, s ≤ pos ∧ pos + (("fox").data).length ≤ e ∧
        e ≤ (("the quick brown FOX jumps").data).length ∧
        (s = 0 ∨ isSnapWs ((("the quick brown FOX jumps").data).getD s ' ') = true) ∧
        (e = (("the quick brown FOX jumps").data).length
          ∨ isSnapWs ((("the quick brown FOX jumps").data).getD e ' ') = true) ∧
        render_highlight (("fox").data)
            (pyStrip (pySlice (("the quick brown FOX jumps").data) s e))
          ∈ search_with_context (("fox").data) (("the quick brown FOX jumps").data) ∧
        wordBounded (("the quick brown FOX jumps").data)
          (pyStrip (pySlice (("the quick brown FOX jumps").data) s e)) ∧
        highlightSpec (("fox").data)
          (pyStrip (pySlice (("the quick brown FOX jumps").data) s e)) :=
  context_window_correct (("fox").data) (("the quick brown FOX jumps").data)
    (by decide) (by decide)

/-! C10: cache entries whose source file disappeared are untouched by the
indexing pass and still searchable. -/

theorem smart_search_eq (keyword : Str) (pc : PathCache) (db : Option (List TextRow))
    (pdf_cache : Cache) (hk : pyStrip keyword ≠ []) :
    smart_search keyword pc db pdf_cache
      = (match search_text_index (pyStrip keyword) db with
         | none => pdf_cache.docs.map Prod.fst
         | some fs => fs).flatMap fun f =>
          match List.lookup f pdf_cache.docs with
          | none => []
          | some pages => search_pages_parallel pc f pages (pyStrip keyword) := by
  rw [smart_search, if_neg hk]

/-- C10 (implicit).  Deleted documents persist: a cached entry whose
filename is not the basename of any scanned file is never selected by
`check_for_updates`; a batch whose paths avoid that basename leaves both
its pages entry and its metadata record untouched; and `smart_search`
still returns a match record from its cached pages, with a path lookup
that resolves to nothing. -/
theorem deleted_docs_persist (pdf_cache : Cache) (N : Str) (P : List Str)
    (pc : PathCache) (db : Option (List TextRow)) (keyword : Str)
    (files : List FileStat) (rs : List TaskResult) (j : Nat)
    (hN : List.lookup N pdf_cache.docs = some P)
    (hfiles : ∀ f ∈ files, basename f.path ≠ N)
    (hrs : ∀ r ∈ rs, basename r.path ≠ N)
    (hpc1 : List.lookup N pc = none)
    (hpc2 : List.lookup (basename N) pc = none)
    (hdb : db = none ∨ db = some (create_text_index_db pdf_cache))
    (hk : pyStrip keyword ≠ [])
    (hj : j < P.length)
    (hocc : lowerStr (pyStrip keyword) <:+: lowerStr (P.getD j [])) :
    (∀ f ∈ check_for_updates files pdf_cache, basename f.path ≠ N) ∧
    (List.lookup N (process_pdfs_batch rs pdf_cache).docs
        = List.lookup N pdf_cache.docs ∧
     List.lookup N (process_pdfs_batch rs pdf_cache).meta
        = List.lookup N pdf_cache.meta) ∧
    (∃ rec ∈ smart_search keyword pc db pdf_cache,
      rec.file = N ∧ rec.page_number = j + 1 ∧ rec.full_text = P.getD j []
        ∧ rec.full_path = none) := by
  refine ⟨?_, ?_, ?_⟩
  · intro f hf
    exact hfiles f (List.mem_filter.mp hf).1
  · have hfind : rs.reverse.find? (fun r => basename r.path == N) = none := by
      apply List.find?_eq_none.mpr
      intro r hr
      simp only [Bool.not_eq_true, beq_eq_false_iff_ne, ne_eq]
      exact hrs r (List.mem_reverse.mp hr)
    obtain ⟨hd, hm⟩ := lookup_process_batch rs pdf_cache N
    rw [hd, hm, hfind]
    exact ⟨rfl, rfl⟩
  · have hkwl : lowerStr (pyStrip keyword) ≠ [] := by
      simp only [lowerStr, ne_eq, List.map_eq_nil_iff]
      exact hk
    have hpmem : P.getD j [] ∈ P := by
      rw [List.getD_eq_getElem P [] hj]
      exact List.getElem_mem hj
    have hpath : get_pdf_path pc N = none := by
      rw [get_pdf_path, hpc1, hpc2]
      rfl
    have hpos_ne : findIter (lowerStr (pyStrip keyword)) (lowerStr (P.getD j [])) ≠ [] := by
      rw [findIter, if_neg hkwl]
      exact findIterGo_ne_nil _ hkwl _ _ 0 (le_refl _) hocc
    have hctx_ne : search_with_context (pyStrip keyword) (P.getD j []) ≠ [] := by
      rw [search_with_context]
      intro hmap
      exact hpos_ne (List.map_eq_nil_iff.mp hmap)
    obtain ⟨ctx, hctx⟩ := List.exists_mem_of_ne_nil _ hctx_ne
    refine ⟨⟨N, j + 1, ctx, P.getD j [], get_pdf_path pc N⟩, ?_, rfl, rfl, rfl, hpath⟩
    rw [smart_search_eq keyword pc db pdf_cache hk]
    apply List.mem_flatMap.mpr
    refine ⟨N, ?_, ?_⟩
    · rcases hdb with rfl | rfl
      · show N ∈ pdf_cache.docs.map Prod.fst
        exact List.mem_map.mpr ⟨(N, P), mem_of_lookup_eq_some hN, rfl⟩
      · show N ∈ ((create_text_index_db pdf_cache).filter fun r =>
          likeMatch (('%' :: lowerStr (pyStrip keyword)) ++ ['%']) r.full_text).map
            fun r => r.filename
        apply List.mem_map.mpr
        refine ⟨⟨N, lowerStr (joinPages P), P.length⟩, ?_, rfl⟩
        apply List.mem_filter.mpr
        refine ⟨List.mem_map.mpr ⟨(N, P), mem_of_lookup_eq_some hN, rfl⟩, ?_⟩
        exact likeMatch_of_contains (hocc.trans (lowerStr_mono (infix_joinPages hpmem)))
    · rw [hN]
      show _ ∈ search_pages_parallel pc N P (pyStrip keyword)
      rw [search_pages_parallel]
      apply List.mem_flatMap.mpr
      refine ⟨j, List.mem_range.mpr hj, ?_⟩
      rw [search_single_page, if_pos ((containsSub_iff _ _).mpr hocc)]
      exact List.mem_map.mpr ⟨ctx, hctx, rfl⟩

/-- Witness for C10: a cached document whose file is gone survives a scan
and a batch over a different file, and is still found by search with no
resolved path. -/
theorem deleted_docs_persist_witness :
    (∀ f ∈ check_for_updates filesC10 cacheC10, basename f.path ≠ (("gone.pdf").data)) ∧
    (List.lookup (("gone.pdf").data) (process_pdfs_batch rsC10 cacheC10).docs
        = List.lookup (("gone.pdf").data) cacheC10.docs ∧
     List.lookup (("gone.pdf").data) (process_pdfs_batch rsC10 cacheC10).meta
        = List.lookup (("gone.pdf").data) cacheC10.meta) ∧
    (∃ rec ∈ smart_search (("hello").data) pcC10 none cacheC10,
      rec.file = (("gone.pdf").data) ∧ rec.page_number = 1 ∧
      rec.full_text = ([(("hello world").data)] : List Str).getD 0 []
        ∧ rec.full_path = none) :=
  deleted_docs_persist cacheC10 (("gone.pdf").data) [(("hello world").data)]
    pcC10 none (("hello").data) filesC10 rsC10 0
    (by decide) (by decide) (by decide) (by decide) (by decide)
    (Or.inl rfl) (by decide) (by decide) (by decide)
